import Mathlib

/-!
Shallow embedding of the Lua lexer of `src/scripting.py`.

Text is a `List Char`; every pattern of the lexer's rule table is translated
into an anchored matcher `List Char → Option (List Char × List Char)` that,
at the head of the remaining input, either fails or returns the matched span
together with the rest of the input.  Character classes follow Python's `re`
semantics on the ASCII range (the inputs of the lexer's own test material).
The pygments `RegexLexer` driver is not part of the repository, so the
mode-stack scanning loop is modelled from the specification; the rule tables,
the builtin word list, the constructor options and the builtin post-pass are
translated from `src/scripting.py` itself.
-/

namespace LuaLex

/-- Python `\s` (ASCII range): space, tab, newline, carriage return,
vertical tab, form feed. -/
def isSpaceChar (c : Char) : Bool :=
  c = ' ' || c = '\t' || c = '\n' || c = '\r' || c = '\x0b' || c = '\x0c'

/-- Python `\w` (ASCII range): letters, digits, underscore. -/
def isWordChar (c : Char) : Bool :=
  c.isAlpha || c.isDigit || c = '_'

/-- Start of `[A-Za-z_]\w*` and of `_name = [^\W\d]\w*` (ASCII range):
a letter or an underscore. -/
def nameStart (c : Char) : Bool :=
  c.isAlpha || c = '_'

/-- Hex digit class `[0-9a-fA-F]` (also the `(?i)` form `[\da-f]`). -/
def hexDigit (c : Char) : Bool :=
  c.isDigit || ('a' ≤ c && c ≤ 'f') || ('A' ≤ c && c ≤ 'F')

/-- Character class of the operator rule `[=<>|~&+\-*/%#^]+`. -/
def isOpChar (c : Char) : Bool :=
  c = '=' || c = '<' || c = '>' || c = '|' || c = '~' || c = '&' ||
  c = '+' || c = '-' || c = '*' || c = '/' || c = '%' || c = '#' || c = '^'

/-- Character class of the punctuation rule `[\[\]{}().,:;]+`. -/
def isPunctChar (c : Char) : Bool :=
  c = '[' || c = ']' || c = '\x7b' || c = '\x7d' || c = '(' || c = ')' ||
  c = '.' || c = ',' || c = ':' || c = ';'

/-- Boolean prefix test on character lists, used for delimiter checks. -/
def isPrefixList : List Char → List Char → Bool
  | [], _ => true
  | _ :: _, [] => false
  | a :: as, b :: bs => a = b && isPrefixList as bs

/-- An anchored matcher consuming a maximal nonempty run of a class,
the shape of `\s+`, `\d+` and the `[...]+` rules. -/
def runMatcher (p : Char → Bool) (cs : List Char) :
    Option (List Char × List Char) :=
  let run := cs.takeWhile p
  if run.isEmpty then none else some (run, cs.dropWhile p)

/-- Matcher for `(?:\s+)`, the `_space` pattern. -/
def matchSpace : List Char → Option (List Char × List Char) :=
  runMatcher isSpaceChar

/-- Matcher for `(?:--.*$)`, the `_comment_single` pattern: `--` and then the
rest of the line (`.` does not cross a newline, `$` holds at the line end). -/
def matchCommentSingle (cs : List Char) : Option (List Char × List Char) :=
  if isPrefixList ['-', '-'] cs then
    some ('-' :: '-' :: (cs.drop 2).takeWhile (fun c => !(c = '\n')),
          (cs.drop 2).dropWhile (fun c => !(c = '\n')))
  else none

/-- Closing long-bracket delimiter `]` `=`*lvl* `]` compared against the
captured opening level, the `\](?P=level)\]` / `\]\1\]` backreference. -/
def closeDelim (lvl : Nat) : List Char :=
  ']' :: List.replicate lvl '=' ++ [']']

/-- Earliest split of the input at a closing delimiter of the given level:
the semantics of the lazy `[\w\W]*?` / `(?s).*?` followed by the close.
Returns the content before the close and the input after it. -/
def findClose (lvl : Nat) : List Char → Option (List Char × List Char)
  | [] => none
  | c :: cs =>
      if isPrefixList (closeDelim lvl) (c :: cs) then
        some ([], (c :: cs).drop (lvl + 2))
      else
        match findClose lvl cs with
        | some (content, rest) => some (c :: content, rest)
        | none => none

/-- Matcher for `(?:--\[(?P<level>=*)\[[\w\W]*?\](?P=level)\])`, the
`_comment_multiline` pattern: `--[`, a captured run of `=`, `[`, then lazy
content up to the earliest closing delimiter of the same level. -/
def matchCommentMultiline (cs : List Char) : Option (List Char × List Char) :=
  if isPrefixList ['-', '-', '['] cs then
    let cs3 := cs.drop 3
    let eqs := cs3.takeWhile (fun c => c = '=')
    match cs3.dropWhile (fun c => c = '=') with
    | c :: body =>
        if c = '[' then
          match findClose eqs.length body with
          | some (content, rest) =>
              some ('-' :: '-' :: '[' ::
                      (eqs ++ '[' :: (content ++ closeDelim eqs.length)), rest)
          | none => none
        else none
    | [] => none
  else none

/-- Matcher for `(?s)\[(=*)\[.*?\]\1\]`, the long-bracket string rule. -/
def matchLongString : List Char → Option (List Char × List Char)
  | c0 :: cs =>
      if c0 = '[' then
        let eqs := cs.takeWhile (fun c => c = '=')
        match cs.dropWhile (fun c => c = '=') with
        | c :: body =>
            if c = '[' then
              match findClose eqs.length body with
              | some (content, rest) =>
                  some ('[' ::
                          (eqs ++ '[' :: (content ++ closeDelim eqs.length)),
                        rest)
              | none => none
            else none
        | [] => none
      else none
  | [] => none

/-- Matcher for `#!.*`, the shebang rule of the `root` state. -/
def matchShebang (cs : List Char) : Option (List Char × List Char) :=
  if isPrefixList ['#', '!'] cs then
    some ('#' :: '!' :: (cs.drop 2).takeWhile (fun c => !(c = '\n')),
          (cs.drop 2).dropWhile (fun c => !(c = '\n')))
  else none

/-- Optional exponent group such as `(p[+-]?\d+)?` or `(e[+-]?\d+)?`:
the marker letter (either case), an optional sign, and at least one digit;
when the digits are missing the group matches nothing. -/
def matchExpPart (e1 e2 : Char) (cs : List Char) : List Char × List Char :=
  match cs with
  | c :: cs2 =>
      if c = e1 || c = e2 then
        let sgn : List Char × List Char :=
          match cs2 with
          | s :: cs3 => if s = '+' || s = '-' then ([s], cs3) else ([], cs2)
          | [] => ([], cs2)
        let ds := sgn.2.takeWhile Char.isDigit
        if ds.isEmpty then ([], cs)
        else (c :: (sgn.1 ++ ds), sgn.2.dropWhile Char.isDigit)
      else ([], cs)
  | [] => ([], cs)

/-- Matcher for `(?i)0x[\da-f]*(\.[\da-f]*)?(p[+-]?\d+)?`. -/
def matchHex : List Char → Option (List Char × List Char)
  | c0 :: x :: cs =>
      if c0 = '0' && (x = 'x' || x = 'X') then
        let d1 := cs.takeWhile hexDigit
        let r1 := cs.dropWhile hexDigit
        let frac : List Char × List Char :=
          match r1 with
          | c :: cs2 =>
              if c = '.' then
                ('.' :: cs2.takeWhile hexDigit, cs2.dropWhile hexDigit)
              else ([], r1)
          | [] => ([], r1)
        let ex := matchExpPart 'p' 'P' frac.2
        some (c0 :: x :: (d1 ++ (frac.1 ++ ex.1)), ex.2)
      else none
  | _ => none

/-- Matcher for `(?i)(\d*\.\d+|\d+\.\d*)(e[+-]?\d+)?`: both alternatives
consume the maximal digit runs around a mandatory dot, at least one of the
two runs being nonempty, then an optional exponent. -/
def matchFloat (cs : List Char) : Option (List Char × List Char) :=
  let d1 := cs.takeWhile Char.isDigit
  match cs.dropWhile Char.isDigit with
  | c :: r2 =>
      if c = '.' then
        let d2 := r2.takeWhile Char.isDigit
        if d1.isEmpty && d2.isEmpty then none
        else
          let ex := matchExpPart 'e' 'E' (r2.dropWhile Char.isDigit)
          some (d1 ++ '.' :: (d2 ++ ex.1), ex.2)
      else none
  | [] => none

/-- Matcher for `(?i)\d+e[+-]?\d+`: digits, exponent marker, optional sign,
digits; the exponent part here is mandatory. -/
def matchFloatE (cs : List Char) : Option (List Char × List Char) :=
  let d1 := cs.takeWhile Char.isDigit
  if d1.isEmpty then none
  else
    let ex := matchExpPart 'e' 'E' (cs.dropWhile Char.isDigit)
    if ex.1.isEmpty then none
    else some (d1 ++ ex.1, ex.2)

/-- Matcher for `\d+`. -/
def matchInt : List Char → Option (List Char × List Char) :=
  runMatcher Char.isDigit

/-- Matcher for the two-character pattern `::`. -/
def matchColonColon (cs : List Char) : Option (List Char × List Char) :=
  if isPrefixList [':', ':'] cs then some ([':', ':'], cs.drop 2) else none

/-- Matcher for `\.{3}`. -/
def matchDots3 (cs : List Char) : Option (List Char × List Char) :=
  if isPrefixList ['.', '.', '.'] cs then
    some (['.', '.', '.'], cs.drop 3)
  else none

/-- Matcher for `\.\.` (the rule of the `varname` state). -/
def matchDotDot (cs : List Char) : Option (List Char × List Char) :=
  if isPrefixList ['.', '.'] cs then some (['.', '.'], cs.drop 2) else none

/-- Matcher for `[.:]`, a single dot or colon. -/
def matchDotOrColon : List Char → Option (List Char × List Char)
  | c :: cs => if c = '.' || c = ':' then some ([c], cs) else none
  | [] => none

/-- Matcher for `[=<>|~&+\-*/%#^]+|\.\.`: a maximal operator-character run,
or else the two-dot concatenation operator. -/
def matchOperator (cs : List Char) : Option (List Char × List Char) :=
  match runMatcher isOpChar cs with
  | some pr => some pr
  | none => matchDotDot cs

/-- Matcher for `[\[\]{}().,:;]+`. -/
def matchPunct : List Char → Option (List Char × List Char) :=
  runMatcher isPunctChar

/-- Matcher for a single given character, as in the `'`, `"` and `\(`
rules. -/
def matchChar (q : Char) : List Char → Option (List Char × List Char)
  | c :: cs => if c = q then some ([c], cs) else none
  | _ => none

/-- Matcher for a word alternation with `\b` suffix, e.g.
`(and|or|not)\b` and the `words([...], suffix=r"\b")` keyword rules: the
maximal word-character run at the position must be one of the listed words. -/
def matchWords (ws : List (List Char)) (cs : List Char) :
    Option (List Char × List Char) :=
  let run := cs.takeWhile isWordChar
  if run.isEmpty then none
  else if run ∈ ws then some (run, cs.dropWhile isWordChar) else none

/-- Word boundary `\b` between the last character of a matched word and the
following input. -/
def boundaryOk (w : List Char) (rest : List Char) : Bool :=
  match w.getLast?, rest with
  | some l, [] => isWordChar l
  | some l, c :: _ => !(isWordChar l = isWordChar c)
  | none, _ => false

/-- Longest element of a list of words, first among equals. -/
def pickLongest : List (List Char) → Option (List Char) :=
  List.foldl
    (fun acc w =>
      match acc with
      | none => some w
      | some b => if b.length < w.length then some w else some b)
    none

/-- Matcher for `words(all_lua_builtins(), suffix=r"\b")`: the longest listed
word (builtin names may contain a dot) present at the position and followed
by a word boundary.  Empty words cannot occur in the builtin catalog and are
excluded. -/
def matchBuiltin (B : List (List Char)) (cs : List Char) :
    Option (List Char × List Char) :=
  match pickLongest (B.filter
      (fun w => !w.isEmpty && isPrefixList w cs &&
                boundaryOk w (cs.drop w.length))) with
  | some w => some (w, cs.drop w.length)
  | none => none

/-- Body alternatives of the string-escape rule
`\\([abfnrtv\\"\']|[\r\n]{1,2}|z\s*|x[0-9a-fA-F]{2}|\d{1,3}|u\{[0-9a-fA-F]+\})`,
tried in the order of the alternation. -/
def matchEscBody : List Char → Option (List Char × List Char)
  | [] => none
  | c :: cs =>
      if c = 'a' || c = 'b' || c = 'f' || c = 'n' || c = 'r' || c = 't' ||
         c = 'v' || c = '\\' || c = '"' || c = '\'' then
        some ([c], cs)
      else if c = '\r' || c = '\n' then
        match cs with
        | c2 :: cs2 =>
            if c2 = '\r' || c2 = '\n' then some ([c, c2], cs2)
            else some ([c], cs)
        | [] => some ([c], [])
      else if c = 'z' then
        some ('z' :: cs.takeWhile isSpaceChar, cs.dropWhile isSpaceChar)
      else if c = 'x' then
        match cs with
        | h1 :: h2 :: r =>
            if hexDigit h1 && hexDigit h2 then some (['x', h1, h2], r)
            else none
        | _ => none
      else if c.isDigit then
        match cs with
        | d2 :: d3 :: r =>
            if d2.isDigit then
              if d3.isDigit then some ([c, d2, d3], r)
              else some ([c, d2], d3 :: r)
            else some ([c], cs)
        | [d2] =>
            if d2.isDigit then some ([c, d2], []) else some ([c], cs)
        | [] => some ([c], [])
      else if c = 'u' then
        match cs with
        | c2 :: r =>
            if c2 = '\x7b' then
              let hs := r.takeWhile hexDigit
              if hs.isEmpty then none
              else
                match r.dropWhile hexDigit with
                | c3 :: r3 =>
                    if c3 = '\x7d' then
                      some ('u' :: '\x7b' :: (hs ++ ['\x7d']), r3)
                    else none
                | [] => none
            else none
        | [] => none
      else none

/-- Matcher for the whole string-escape rule: a backslash followed by one of
the recognized escape bodies. -/
def matchStringEscape : List Char → Option (List Char × List Char)
  | c :: cs =>
      if c = '\\' then
        match matchEscBody cs with
        | some (b, r) => some ('\\' :: b, r)
        | none => none
      else none
  | [] => none

/-- Matcher for `[^\\']+` and `[^\\"]+`: a maximal nonempty run of string
content not containing a backslash or the given quote. -/
def matchStringRun (q : Char) : List Char → Option (List Char × List Char) :=
  runMatcher (fun c => !(c = '\\') && !(c = q))

/-!
Lookahead through `_s* = (?:multiline comment|single comment|whitespace)*`.
The lazy content of a multiline comment backtracks over every closing
delimiter of the captured level, so every such continuation is reachable.
-/

/-- Every input suffix obtained by cutting at some closing delimiter of the
given level — all the continuations the lazy comment body can reach. -/
def allCloses (lvl : Nat) : List Char → List (List Char)
  | [] => []
  | c :: cs =>
      (if isPrefixList (closeDelim lvl) (c :: cs) then
        [(c :: cs).drop (lvl + 2)]
      else []) ++ allCloses lvl cs

/-- Continuations after one multiline comment starting at the position,
one for every level-matching closing delimiter. -/
def commentMultilineRests : List Char → List (List Char)
  | '-' :: '-' :: '[' :: cs =>
      let eqs := cs.takeWhile (fun c => c = '=')
      match cs.dropWhile (fun c => c = '=') with
      | '[' :: body => allCloses eqs.length body
      | _ => []
  | _ => []

/-- Continuations after one `_s` step: a multiline comment (any closing),
a single-line comment, or a whitespace run. -/
def sSteps (cs : List Char) : List (List Char) :=
  commentMultilineRests cs ++
  (match matchCommentSingle cs with
   | some pr => [pr.2]
   | none => []) ++
  (match matchSpace cs with
   | some pr => [pr.2]
   | none => [])

/-- Fuelled search for `(?=_s*X)`: the head predicate must hold at some
position reachable by skipping comments and whitespace. -/
def lookS (pred : List Char → Bool) : Nat → List Char → Bool
  | 0, cs => pred cs
  | n + 1, cs => pred cs || (sSteps cs).any (fun r => lookS pred n r)

/-- Head test for the lookahead `[.:]`. -/
def headDotColon : List Char → Bool
  | c :: _ => c = '.' || c = ':'
  | [] => false

/-- Head test for the lookahead `\(`. -/
def headParen : List Char → Bool
  | c :: _ => c = '('
  | [] => false

/-- Lookahead `(?={_s}*[.:])` applied to the rest of the input. -/
def lookDotColon (cs : List Char) : Bool :=
  lookS headDotColon cs.length cs

/-- Lookahead `(?={_s}*\()` applied to the rest of the input. -/
def lookParen (cs : List Char) : Bool :=
  lookS headParen cs.length cs

/-- Matcher for `[A-Za-z_]\w*` (also `_name`, identical on ASCII). -/
def matchIdent : List Char → Option (List Char × List Char)
  | c :: cs =>
      if nameStart c then
        some (c :: cs.takeWhile isWordChar, cs.dropWhile isWordChar)
      else none
  | [] => none

/-- Matcher for an identifier constrained by a zero-width lookahead on what
follows it, the shape of `[A-Za-z_]\w*(?={_s}*[.:])` and the `(?={_s}*\()`
variant. -/
def matchIdentBefore (look : List Char → Bool) :
    List Char → Option (List Char × List Char)
  | c :: cs =>
      if nameStart c then
        let rest := cs.dropWhile isWordChar
        if look rest then some (c :: cs.takeWhile isWordChar, rest) else none
      else none
  | [] => none

/-! Token classifications, modes, rules and the rule tables. -/

/-- Closed taxonomy of token classifications used by the Lua lexer. -/
inductive Tok where
  | commentPreproc | commentMultiline | commentSingle | whitespace
  | numberHex | numberFloat | numberInteger
  | string | stringSingle | stringDouble | stringEscape
  | punctuation | operator | operatorWord
  | keywordReserved | keywordDeclaration | keywordConstant
  | nameBuiltin | nameVariable | nameFunction | nameProperty
  | nameClass | nameLabel | name
  | error
  deriving DecidableEq, Repr

/-- Lexer modes: the named states of the token table.  `sqsC` and `dqsC` are
the `combined("stringescape", "sqs")` and `combined("stringescape", "dqs")`
states pushed by the quote rules. -/
inductive Mode where
  | root | base | varname | funcname | gotoSt | label | sqsC | dqsC
  deriving DecidableEq, Repr

/-- Stack transition attached to a rule. -/
inductive Action where
  | stay
  | push (m : Mode)
  | pop
  deriving DecidableEq, Repr

/-- An emitted token: start offset, classification, text. -/
structure Token where
  index : Nat
  tok : Tok
  value : List Char
  deriving DecidableEq, Repr

/-- One rule of a mode: an anchored matcher, the classification of the
matched span, and the stack transition. -/
structure Rule where
  matcher : List Char → Option (List Char × List Char)
  kind : Tok
  act : Action

/-- Keyword list of the `Keyword.Reserved` words rule. -/
def luaKeywords : List (List Char) :=
  [['b','r','e','a','k'], ['d','o'], ['e','l','s','e'],
   ['e','l','s','e','i','f'], ['e','n','d'], ['f','o','r'], ['i','f'],
   ['i','n'], ['r','e','p','e','a','t'], ['r','e','t','u','r','n'],
   ['t','h','e','n'], ['u','n','t','i','l'], ['w','h','i','l','e']]

/-- Words of `(and|or|not)\b`. -/
def luaWordOps : List (List Char) :=
  [['a','n','d'], ['o','r'], ['n','o','t']]

/-- Words of `(true|false|nil)\b`. -/
def luaConstants : List (List Char) :=
  [['t','r','u','e'], ['f','a','l','s','e'], ['n','i','l']]

/-- Rules of the `ws` state, included at the head of the content states. -/
def wsRules : List Rule :=
  [⟨matchCommentMultiline, .commentMultiline, .stay⟩,
   ⟨matchCommentSingle, .commentSingle, .stay⟩,
   ⟨matchSpace, .whitespace, .stay⟩]

/-- Rules of the `root` state (the `default("base")` fallback is handled by
the scanner when no rule matches in `root`). -/
def rootRules : List Rule :=
  [⟨matchShebang, .commentPreproc, .stay⟩]

/-- Rules of the `base` state, in declared order, with `include("ws")`
flattened in place; `B` is the builtin word list. -/
def baseRules (B : List (List Char)) : List Rule :=
  wsRules ++
  [⟨matchHex, .numberHex, .stay⟩,
   ⟨matchFloat, .numberFloat, .stay⟩,
   ⟨matchFloatE, .numberFloat, .stay⟩,
   ⟨matchInt, .numberInteger, .stay⟩,
   ⟨matchLongString, .string, .stay⟩,
   ⟨matchColonColon, .punctuation, .push .label⟩,
   ⟨matchDots3, .punctuation, .stay⟩,
   ⟨matchOperator, .operator, .stay⟩,
   ⟨matchPunct, .punctuation, .stay⟩,
   ⟨matchWords luaWordOps, .operatorWord, .stay⟩,
   ⟨matchWords luaKeywords, .keywordReserved, .stay⟩,
   ⟨matchWords [['g','o','t','o']], .keywordReserved, .push .gotoSt⟩,
   ⟨matchWords [['l','o','c','a','l']], .keywordDeclaration, .stay⟩,
   ⟨matchWords luaConstants, .keywordConstant, .stay⟩,
   ⟨matchWords [['f','u','n','c','t','i','o','n']], .keywordReserved,
      .push .funcname⟩,
   ⟨matchBuiltin B, .nameBuiltin, .stay⟩,
   ⟨matchIdentBefore lookDotColon, .nameVariable, .push .varname⟩,
   ⟨matchIdentBefore lookParen, .nameFunction, .stay⟩,
   ⟨matchIdent, .nameVariable, .stay⟩,
   ⟨matchChar '\'', .stringSingle, .push .sqsC⟩,
   ⟨matchChar '"', .stringDouble, .push .dqsC⟩]

/-- Rules of the `varname` state. -/
def varnameRules : List Rule :=
  wsRules ++
  [⟨matchDotDot, .operator, .pop⟩,
   ⟨matchDotOrColon, .punctuation, .stay⟩,
   ⟨matchIdentBefore lookDotColon, .nameProperty, .stay⟩,
   ⟨matchIdentBefore lookParen, .nameFunction, .pop⟩,
   ⟨matchIdent, .nameProperty, .pop⟩]

/-- Rules of the `funcname` state. -/
def funcnameRules : List Rule :=
  wsRules ++
  [⟨matchDotOrColon, .punctuation, .stay⟩,
   ⟨matchIdentBefore lookDotColon, .nameClass, .stay⟩,
   ⟨matchIdent, .nameFunction, .pop⟩,
   ⟨matchChar '(', .punctuation, .pop⟩]

/-- Rules of the `goto` state. -/
def gotoRules : List Rule :=
  wsRules ++
  [⟨matchIdent, .nameLabel, .pop⟩]

/-- Rules of the `label` state. -/
def labelRules : List Rule :=
  wsRules ++
  [⟨matchColonColon, .punctuation, .pop⟩,
   ⟨matchIdent, .nameLabel, .stay⟩]

/-- Rules of the combined `stringescape` + `sqs` state. -/
def sqsCombined : List Rule :=
  [⟨matchStringEscape, .stringEscape, .stay⟩,
   ⟨matchChar '\'', .stringSingle, .pop⟩,
   ⟨matchStringRun '\'', .stringSingle, .stay⟩]

/-- Rules of the combined `stringescape` + `dqs` state. -/
def dqsCombined : List Rule :=
  [⟨matchStringEscape, .stringEscape, .stay⟩,
   ⟨matchChar '"', .stringDouble, .pop⟩,
   ⟨matchStringRun '"', .stringDouble, .stay⟩]

/-- Rule table: declared rules of each mode. -/
def rulesOf (B : List (List Char)) : Mode → List Rule
  | .root => rootRules
  | .base => baseRules B
  | .varname => varnameRules
  | .funcname => funcnameRules
  | .gotoSt => gotoRules
  | .label => labelRules
  | .sqsC => sqsCombined
  | .dqsC => dqsCombined

/-! The mode-stack scanner. -/

/-- First matching rule wins: result is the matched span, the rest of the
input, and the winning rule's classification and transition. -/
def tryRules : List Rule → List Char → Option (List Char × List Char × Tok × Action)
  | [], _ => none
  | r :: rs, cs =>
      match r.matcher cs with
      | some (m, rest) => some (m, rest, r.kind, r.act)
      | none => tryRules rs cs

/-- Modelled from the spec: stack transition application of the Mode Stack
Scanner (spec section 4.2); popping the last entry is a lexer-definition
error that the Lua table never reaches, so it is left inert. -/
def applyAct : Action → List Mode → List Mode
  | .stay, st => st
  | .push m, st => m :: st
  | .pop, st =>
      match st with
      | [] => []
      | [m] => [m]
      | _ :: rest => rest

/-- Modelled from the spec: the driving loop of
`RegexLexer.get_tokens_unprocessed` (the `lexer` module is not part of the
repository).  At each position the rules of the top-of-stack mode are tried
in order; a match emits one token for the span and applies the transition;
in `root`, rule failure takes the `default("base")` fallback (push, no
token); elsewhere rule failure emits a one-character `Error` token and
advances by one.  The fuel argument bounds the number of steps. -/
def scanAux (B : List (List Char)) :
    Nat → List Mode → Nat → List Char → List Token
  | 0, _, _, _ => []
  | _ + 1, _, _, [] => []
  | fuel + 1, stack, pos, c :: cs =>
      let md := stack.headD .root
      match tryRules (rulesOf B md) (c :: cs) with
      | some (m, rest, k, act) =>
          ⟨pos, k, m⟩ ::
            scanAux B fuel (applyAct act stack) (pos + m.length) rest
      | none =>
          if md = .root then
            scanAux B fuel (.base :: stack) pos (c :: cs)
          else
            ⟨pos, .error, [c]⟩ :: scanAux B fuel stack (pos + 1) cs

/-- Modelled from the spec: the raw token stream of the Mode Stack Scanner,
starting at offset 0 with stack `[root]`.  Every match consumes at least one
character and the `root` fallback fires at most twice, so a fuel of
`length + 2` never runs out. -/
def getTokensRaw (B : List (List Char)) (text : List Char) : List Token :=
  scanAux B (text.length + 2) [.root] 0 text

/-! The builtin registry, the constructor options, and the builtin
post-pass of `LuaLexer.get_tokens_unprocessed`. -/

/-- A builtin registry: the external `MODULES` table, a mapping from module
name to the list of its function names. -/
abbrev Modules := List (List Char × List (List Char))

/-- Translation of `all_lua_builtins`: every function name of every module. -/
def all_lua_builtins (M : Modules) : List (List Char) :=
  (M.map Prod.snd).flatten

/-- Translation of the `LuaLexer.__init__` computation of `self._functions`:
when `func_name_highlighting` is set, the names of every module not listed
in `disabled_modules`; otherwise empty. -/
def luaFunctions (M : Modules) (funcNameHighlighting : Bool)
    (disabledModules : List (List Char)) : List (List Char) :=
  if funcNameHighlighting then
    ((M.filter (fun p => !decide (p.1 ∈ disabledModules))).map Prod.snd).flatten
  else []

/-- Python `value.split(".")`: the maximal decomposition at every dot. -/
def splitOnDot : List Char → List (List Char)
  | [] => [[]]
  | c :: cs =>
      if c = '.' then [] :: splitOnDot cs
      else
        match splitOnDot cs with
        | p :: ps => (c :: p) :: ps
        | [] => [[c]]

/-- Translation of the post-pass loop of `LuaLexer.get_tokens_unprocessed`:
a `Name.Builtin` token whose text is not an enabled function is re-emitted
as a plain name, split at the dot into name, punctuation, name when the text
is qualified.  `none` models the `ValueError` of the two-element unpacking
when the text does not split into exactly two parts. -/
def postBuiltin (functions : List (List Char)) :
    List Token → Option (List Token)
  | [] => some []
  | t :: ts =>
      match postBuiltin functions ts with
      | none => none
      | some rest =>
          if t.tok = .nameBuiltin ∧ ¬ (t.value ∈ functions) then
            if '.' ∈ t.value then
              match splitOnDot t.value with
              | [a, b] =>
                  some (⟨t.index, .name, a⟩ ::
                        ⟨t.index + a.length, .punctuation, ['.']⟩ ::
                        ⟨t.index + a.length + 1, .name, b⟩ :: rest)
              | _ => none
            else some (⟨t.index, .name, t.value⟩ :: rest)
          else some (t :: rest)

/-- The full pipeline `LuaLexer.get_tokens_unprocessed`: scan the text with
the builtin word list of the registry, then apply the builtin post-pass with
the enabled-function set of the constructor options. -/
def get_tokens_unprocessed (M : Modules) (funcNameHighlighting : Bool)
    (disabledModules : List (List Char)) (text : List Char) :
    Option (List Token) :=
  postBuiltin (luaFunctions M funcNameHighlighting disabledModules)
    (getTokensRaw (all_lua_builtins M) text)

/-- A small concrete builtin registry standing in for the external
`pygments.lexers._lua_builtins.MODULES` catalog in concrete instances. -/
def sampleModules : Modules :=
  [(['b','a','s','i','c'],
    [['p','r','i','n','t'], ['p','a','i','r','s'], ['n','e','x','t']]),
   (['s','t','r','i','n','g'],
    [['s','t','r','i','n','g','.','b','y','t','e'],
     ['s','t','r','i','n','g','.','f','o','r','m','a','t'],
     ['s','l','e','n']]),
   (['t','a','b','l','e'],
    [['t','a','b','l','e','.','c','o','n','c','a','t'],
     ['t','a','b','l','e','.','i','n','s','e','r','t'],
     ['t','a','b','l','e','.','u','n','p','a','c','k']])]

/-! Soundness of the matchers: a successful match returns a nonempty span
that concatenated with the returned rest reproduces the input. -/

/-- A matcher is sound when every successful result decomposes the input
into the nonempty matched span followed by the rest. -/
def MatcherOk (f : List Char → Option (List Char × List Char)) : Prop :=
  ∀ cs m r, f cs = some (m, r) → m ++ r = cs ∧ m ≠ []

theorem isPrefixList_append :
    ∀ w cs : List Char, isPrefixList w cs = true → w ++ cs.drop w.length = cs
  | [], cs, _ => by simp
  | a :: as, [], h => by simp [isPrefixList] at h
  | a :: as, b :: bs, h => by
      simp only [isPrefixList, Bool.and_eq_true, decide_eq_true_eq] at h
      obtain ⟨rfl, h2⟩ := h
      simpa using isPrefixList_append as bs h2

theorem runMatcher_ok (p : Char → Bool) : MatcherOk (runMatcher p) := by
  intro cs m r h
  simp only [runMatcher] at h
  split at h
  · exact absurd h (by simp)
  · rename_i hne
    rw [Option.some.injEq, Prod.mk.injEq] at h
    obtain ⟨rfl, rfl⟩ := h
    refine ⟨List.takeWhile_append_dropWhile (p := p) (l := cs), ?_⟩
    simpa using hne

theorem matchSpace_ok : MatcherOk matchSpace := runMatcher_ok _
theorem matchInt_ok : MatcherOk matchInt := runMatcher_ok _
theorem matchPunct_ok : MatcherOk matchPunct := runMatcher_ok _
theorem matchStringRun_ok (q : Char) : MatcherOk (matchStringRun q) :=
  runMatcher_ok _

theorem matchCommentSingle_ok : MatcherOk matchCommentSingle := by
  intro cs m r h
  simp only [matchCommentSingle] at h
  split at h
  · rename_i hp
    rw [Option.some.injEq, Prod.mk.injEq] at h
    obtain ⟨rfl, rfl⟩ := h
    refine ⟨?_, by simp⟩
    have hpre := isPrefixList_append ['-', '-'] cs hp
    calc '-' :: '-' :: ((cs.drop 2).takeWhile (fun c => !(c = '\n')) ++
            (cs.drop 2).dropWhile (fun c => !(c = '\n')))
        = ['-', '-'] ++ cs.drop 2 := by
          rw [List.takeWhile_append_dropWhile]; rfl
      _ = cs := hpre
  · exact absurd h (by simp)

theorem matchShebang_ok : MatcherOk matchShebang := by
  intro cs m r h
  simp only [matchShebang] at h
  split at h
  · rename_i hp
    rw [Option.some.injEq, Prod.mk.injEq] at h
    obtain ⟨rfl, rfl⟩ := h
    refine ⟨?_, by simp⟩
    have hpre := isPrefixList_append ['#', '!'] cs hp
    calc '#' :: '!' :: ((cs.drop 2).takeWhile (fun c => !(c = '\n')) ++
            (cs.drop 2).dropWhile (fun c => !(c = '\n')))
        = ['#', '!'] ++ cs.drop 2 := by
          rw [List.takeWhile_append_dropWhile]; rfl
      _ = cs := hpre
  · exact absurd h (by simp)

theorem closeDelim_length (lvl : Nat) : (closeDelim lvl).length = lvl + 2 := by
  simp [closeDelim]

theorem findClose_append :
    ∀ (lvl : Nat) (body content rest : List Char),
      findClose lvl body = some (content, rest) →
      content ++ (closeDelim lvl ++ rest) = body
  | lvl, [], content, rest, h => by simp [findClose] at h
  | lvl, c :: cs, content, rest, h => by
      unfold findClose at h
      split at h
      · rename_i hp
        rw [Option.some.injEq, Prod.mk.injEq] at h
        obtain ⟨rfl, rfl⟩ := h
        have := isPrefixList_append (closeDelim lvl) (c :: cs) hp
        simpa [closeDelim_length] using this
      · rename_i hp
        cases hfc : findClose lvl cs with
        | none => rw [hfc] at h; exact absurd h (by simp)
        | some pr =>
            obtain ⟨content', rest'⟩ := pr
            rw [hfc] at h
            rw [Option.some.injEq, Prod.mk.injEq] at h
            obtain ⟨rfl, rfl⟩ := h
            have := findClose_append lvl cs content' rest' hfc
            simp [← this]

theorem takeWhile_cons_dropWhile (p : Char → Bool) (l : List Char)
    (c : Char) (body : List Char) (hdw : l.dropWhile p = c :: body) :
    l.takeWhile p ++ c :: body = l := by
  rw [← hdw, List.takeWhile_append_dropWhile]

theorem matchCommentMultiline_ok : MatcherOk matchCommentMultiline := by
  intro cs m r h
  simp only [matchCommentMultiline] at h
  split at h
  · rename_i hp
    split at h
    · rename_i c body hdw
      split at h
      · rename_i hc
        subst hc
        split at h
        · rename_i content rest hfc
          rw [Option.some.injEq, Prod.mk.injEq] at h
          obtain ⟨rfl, rfl⟩ := h
          refine ⟨?_, by simp⟩
          have h3 := isPrefixList_append ['-', '-', '['] cs hp
          have hbody := findClose_append _ body content rest hfc
          have hsplit := takeWhile_cons_dropWhile _ (cs.drop 3) _ body hdw
          calc ('-' :: '-' :: '[' ::
                  ((cs.drop 3).takeWhile (fun c => c = '=') ++ '[' ::
                    (content ++
                      closeDelim ((cs.drop 3).takeWhile
                        (fun c => c = '=')).length))) ++ rest
              = '-' :: '-' :: '[' ::
                  ((cs.drop 3).takeWhile (fun c => c = '=') ++ '[' ::
                    (content ++
                      (closeDelim ((cs.drop 3).takeWhile
                        (fun c => c = '=')).length ++ rest))) := by simp
            _ = '-' :: '-' :: '[' ::
                  ((cs.drop 3).takeWhile (fun c => c = '=') ++ '[' :: body)
                := by rw [hbody]
            _ = ['-', '-', '['] ++ cs.drop 3 := by rw [hsplit]; rfl
            _ = cs := h3
        · exact absurd h (by simp)
      · exact absurd h (by simp)
    · exact absurd h (by simp)
  · exact absurd h (by simp)

theorem matchLongString_ok : MatcherOk matchLongString := by
  intro cs m r h
  match cs with
  | [] => simp [matchLongString] at h
  | c0 :: cs =>
    simp only [matchLongString] at h
    split at h
    · rename_i hc0
      subst hc0
      split at h
      · rename_i c body hdw
        split at h
        · rename_i hc
          subst hc
          split at h
          · rename_i content rest hfc
            rw [Option.some.injEq, Prod.mk.injEq] at h
            obtain ⟨rfl, rfl⟩ := h
            refine ⟨?_, by simp⟩
            have hbody := findClose_append _ body content rest hfc
            have hsplit := takeWhile_cons_dropWhile _ cs _ body hdw
            calc ('[' :: (cs.takeWhile (fun c => c = '=') ++ '[' ::
                    (content ++
                      closeDelim (cs.takeWhile
                        (fun c => c = '=')).length))) ++ rest
                = '[' :: (cs.takeWhile (fun c => c = '=') ++ '[' ::
                    (content ++
                      (closeDelim (cs.takeWhile
                        (fun c => c = '=')).length ++ rest))) := by simp
              _ = '[' :: (cs.takeWhile (fun c => c = '=') ++ '[' :: body)
                  := by rw [hbody]
              _ = '[' :: cs := by rw [hsplit]
          · exact absurd h (by simp)
        · exact absurd h (by simp)
      · exact absurd h (by simp)
    · exact absurd h (by simp)

theorem matchExpPart_append (e1 e2 : Char) (cs : List Char) :
    (matchExpPart e1 e2 cs).1 ++ (matchExpPart e1 e2 cs).2 = cs := by
  simp only [matchExpPart]
  repeat' split
  all_goals simp_all [List.takeWhile_append_dropWhile]

theorem matchHex_ok : MatcherOk matchHex := by
  intro cs m r h
  match cs with
  | [] => simp [matchHex] at h
  | [c0] => simp [matchHex] at h
  | c0 :: x :: cs =>
    simp only [matchHex] at h
    split at h
    · split at h
      · rename_i hc c cs2 hdw
        split at h
        · rename_i hdot
          subst hdot
          rw [Option.some.injEq, Prod.mk.injEq] at h
          obtain ⟨rfl, rfl⟩ := h
          refine ⟨?_, by simp⟩
          have hexp := matchExpPart_append 'p' 'P' (cs2.dropWhile hexDigit)
          have htw2 := List.takeWhile_append_dropWhile
            (p := hexDigit) (l := cs2)
          have htw := takeWhile_cons_dropWhile hexDigit cs '.' cs2 hdw
          simp only [List.cons_append, List.append_assoc, List.cons.injEq,
            true_and]
          rw [hexp, htw2, htw]
        · rename_i hdot
          rw [Option.some.injEq, Prod.mk.injEq] at h
          obtain ⟨rfl, rfl⟩ := h
          refine ⟨?_, by simp⟩
          have hexp := matchExpPart_append 'p' 'P' (cs.dropWhile hexDigit)
          have htw := List.takeWhile_append_dropWhile
            (p := hexDigit) (l := cs)
          simp only [List.cons_append, List.append_assoc, List.nil_append,
            List.cons.injEq, true_and]
          rw [hexp, htw]
      · rename_i hc hdw
        rw [Option.some.injEq, Prod.mk.injEq] at h
        obtain ⟨rfl, rfl⟩ := h
        refine ⟨?_, by simp⟩
        have hexp := matchExpPart_append 'p' 'P' (cs.dropWhile hexDigit)
        have htw := List.takeWhile_append_dropWhile (p := hexDigit) (l := cs)
        simp only [List.cons_append, List.append_assoc, List.nil_append,
          List.cons.injEq, true_and]
        rw [hexp, htw]
    · exact absurd h (by simp)

theorem matchFloat_ok : MatcherOk matchFloat := by
  intro cs m r h
  simp only [matchFloat] at h
  split at h
  · rename_i c r2 hdw
    split at h
    · rename_i hdot
      subst hdot
      split at h
      · exact absurd h (by simp)
      · rw [Option.some.injEq, Prod.mk.injEq] at h
        obtain ⟨rfl, rfl⟩ := h
        refine ⟨?_, by simp⟩
        have hexp := matchExpPart_append 'e' 'E' (r2.dropWhile Char.isDigit)
        have htw2 := List.takeWhile_append_dropWhile
          (p := Char.isDigit) (l := r2)
        have htw := takeWhile_cons_dropWhile Char.isDigit cs '.' r2 hdw
        simp only [List.cons_append, List.append_assoc]
        rw [hexp, htw2, htw]
    · exact absurd h (by simp)
  · exact absurd h (by simp)

theorem matchFloatE_ok : MatcherOk matchFloatE := by
  intro cs m r h
  simp only [matchFloatE] at h
  split at h
  · exact absurd h (by simp)
  · rename_i hd1
    split at h
    · exact absurd h (by simp)
    · rw [Option.some.injEq, Prod.mk.injEq] at h
      obtain ⟨rfl, rfl⟩ := h
      have hd1' : cs.takeWhile Char.isDigit ≠ [] := by simpa using hd1
      refine ⟨?_, fun hnil => hd1' (List.append_eq_nil.mp hnil).1⟩
      have hexp := matchExpPart_append 'e' 'E' (cs.dropWhile Char.isDigit)
      have htw := List.takeWhile_append_dropWhile
        (p := Char.isDigit) (l := cs)
      rw [List.append_assoc, hexp, htw]

theorem matchColonColon_ok : MatcherOk matchColonColon := by
  intro cs m r h
  simp only [matchColonColon] at h
  split at h
  · rename_i hp
    rw [Option.some.injEq, Prod.mk.injEq] at h
    obtain ⟨rfl, rfl⟩ := h
    exact ⟨isPrefixList_append [':', ':'] cs hp, by simp⟩
  · exact absurd h (by simp)

theorem matchDots3_ok : MatcherOk matchDots3 := by
  intro cs m r h
  simp only [matchDots3] at h
  split at h
  · rename_i hp
    rw [Option.some.injEq, Prod.mk.injEq] at h
    obtain ⟨rfl, rfl⟩ := h
    exact ⟨isPrefixList_append ['.', '.', '.'] cs hp, by simp⟩
  · exact absurd h (by simp)

theorem matchDotDot_ok : MatcherOk matchDotDot := by
  intro cs m r h
  simp only [matchDotDot] at h
  split at h
  · rename_i hp
    rw [Option.some.injEq, Prod.mk.injEq] at h
    obtain ⟨rfl, rfl⟩ := h
    exact ⟨isPrefixList_append ['.', '.'] cs hp, by simp⟩
  · exact absurd h (by simp)

theorem matchDotOrColon_ok : MatcherOk matchDotOrColon := by
  intro cs m r h
  match cs with
  | [] => simp [matchDotOrColon] at h
  | c :: cs =>
    simp only [matchDotOrColon] at h
    split at h
    · rw [Option.some.injEq, Prod.mk.injEq] at h
      obtain ⟨rfl, rfl⟩ := h
      exact ⟨rfl, by simp⟩
    · exact absurd h (by simp)

theorem matchOperator_ok : MatcherOk matchOperator := by
  intro cs m r h
  simp only [matchOperator] at h
  cases hr : runMatcher isOpChar cs with
  | some pr =>
      rw [hr] at h
      obtain ⟨m', r'⟩ := pr
      rw [Option.some.injEq, Prod.mk.injEq] at h
      obtain ⟨rfl, rfl⟩ := h
      exact runMatcher_ok isOpChar cs _ _ hr
  | none =>
      rw [hr] at h
      exact matchDotDot_ok cs m r h

theorem matchChar_ok (q : Char) : MatcherOk (matchChar q) := by
  intro cs m r h
  match cs with
  | [] => simp [matchChar] at h
  | c :: cs =>
    simp only [matchChar] at h
    split at h
    · rw [Option.some.injEq, Prod.mk.injEq] at h
      obtain ⟨rfl, rfl⟩ := h
      exact ⟨rfl, by simp⟩
    · exact absurd h (by simp)

theorem matchWords_ok (ws : List (List Char)) : MatcherOk (matchWords ws) := by
  intro cs m r h
  simp only [matchWords] at h
  split at h
  · exact absurd h (by simp)
  · rename_i hne
    split at h
    · rw [Option.some.injEq, Prod.mk.injEq] at h
      obtain ⟨rfl, rfl⟩ := h
      refine ⟨List.takeWhile_append_dropWhile (p := isWordChar) (l := cs), ?_⟩
      simpa using hne
    · exact absurd h (by simp)

theorem matchIdent_ok : MatcherOk matchIdent := by
  intro cs m r h
  match cs with
  | [] => simp [matchIdent] at h
  | c :: cs =>
    simp only [matchIdent] at h
    split at h
    · rw [Option.some.injEq, Prod.mk.injEq] at h
      obtain ⟨rfl, rfl⟩ := h
      refine ⟨?_, by simp⟩
      simp [List.takeWhile_append_dropWhile]
    · exact absurd h (by simp)

theorem matchIdentBefore_ok (look : List Char → Bool) :
    MatcherOk (matchIdentBefore look) := by
  intro cs m r h
  match cs with
  | [] => simp [matchIdentBefore] at h
  | c :: cs =>
    simp only [matchIdentBefore] at h
    split at h
    · split at h
      · rw [Option.some.injEq, Prod.mk.injEq] at h
        obtain ⟨rfl, rfl⟩ := h
        refine ⟨?_, by simp⟩
        simp [List.takeWhile_append_dropWhile]
      · exact absurd h (by simp)
    · exact absurd h (by simp)

theorem pickLongest_mem :
    ∀ (l : List (List Char)) (acc : Option (List Char)) (w : List Char),
      List.foldl
        (fun acc w =>
          match acc with
          | none => some w
          | some b => if b.length < w.length then some w else some b)
        acc l = some w →
      w ∈ l ∨ acc = some w
  | [], acc, w, h => Or.inr h
  | x :: xs, acc, w, h => by
      rcases pickLongest_mem xs _ w h with hmem | hacc
      · exact Or.inl (List.mem_cons_of_mem _ hmem)
      · match acc with
        | none =>
            rw [Option.some.injEq] at hacc
            exact Or.inl (hacc ▸ List.mem_cons_self _ _)
        | some b =>
            simp only at hacc
            split at hacc
            · rw [Option.some.injEq] at hacc
              exact Or.inl (hacc ▸ List.mem_cons_self _ _)
            · exact Or.inr hacc

theorem matchBuiltin_sound (B : List (List Char)) (cs m r : List Char)
    (h : matchBuiltin B cs = some (m, r)) :
    m ++ r = cs ∧ m ≠ [] ∧ m ∈ B := by
  simp only [matchBuiltin] at h
  cases hp : pickLongest
      (B.filter (fun w => !w.isEmpty && isPrefixList w cs &&
        boundaryOk w (cs.drop w.length))) with
  | none => rw [hp] at h; exact absurd h (by simp)
  | some w =>
      rw [hp] at h
      rw [Option.some.injEq, Prod.mk.injEq] at h
      obtain ⟨rfl, rfl⟩ := h
      have hmem : w ∈ B.filter (fun w => !w.isEmpty && isPrefixList w cs &&
          boundaryOk w (cs.drop w.length)) := by
        rcases pickLongest_mem _ none w hp with hm | hm
        · exact hm
        · exact absurd hm (by simp)
      rw [List.mem_filter] at hmem
      obtain ⟨hB, hprops⟩ := hmem
      simp only [Bool.and_eq_true, Bool.not_eq_true'] at hprops
      refine ⟨isPrefixList_append w cs hprops.1.2, ?_, hB⟩
      simpa using hprops.1.1

theorem matchBuiltin_ok (B : List (List Char)) : MatcherOk (matchBuiltin B) :=
  fun cs m r h => ⟨(matchBuiltin_sound B cs m r h).1,
    (matchBuiltin_sound B cs m r h).2.1⟩

theorem matchEscBody_ok : MatcherOk matchEscBody := by
  intro cs b r h
  match cs with
  | [] => simp [matchEscBody] at h
  | c :: cs =>
    simp only [matchEscBody] at h
    repeat' split at h
    all_goals first
      | exact Option.noConfusion h
      | (rw [Option.some.injEq, Prod.mk.injEq] at h
         obtain ⟨rfl, rfl⟩ := h
         refine ⟨?_, by simp⟩
         simp_all [takeWhile_cons_dropWhile, List.takeWhile_append_dropWhile])


theorem matchStringEscape_ok : MatcherOk matchStringEscape := by
  intro cs m r h
  match cs with
  | [] => simp [matchStringEscape] at h
  | c :: cs =>
    simp only [matchStringEscape] at h
    split at h
    · rename_i hc
      subst hc
      cases hb : matchEscBody cs with
      | none => rw [hb] at h; exact absurd h (by simp)
      | some pr =>
          obtain ⟨b, r'⟩ := pr
          rw [hb] at h
          rw [Option.some.injEq, Prod.mk.injEq] at h
          obtain ⟨rfl, rfl⟩ := h
          have := matchEscBody_ok cs b r' hb
          exact ⟨by rw [List.cons_append, this.1], by simp⟩
    · exact absurd h (by simp)

/-! Soundness of the scanner: the emitted tokens partition the input. -/

theorem tryRules_mem :
    ∀ (rs : List Rule) (cs m rest : List Char) (k : Tok) (a : Action),
      tryRules rs cs = some (m, rest, k, a) →
      ∃ ru ∈ rs, ru.matcher cs = some (m, rest) ∧ ru.kind = k ∧ ru.act = a
  | [], _, _, _, _, _, h => by simp [tryRules] at h
  | ru :: rs, cs, m, rest, k, a, h => by
      simp only [tryRules] at h
      cases hm : ru.matcher cs with
      | some pr =>
          rw [hm] at h
          obtain ⟨m', rest'⟩ := pr
          rw [Option.some.injEq] at h
          simp only [Prod.mk.injEq] at h
          obtain ⟨rfl, rfl, rfl, rfl⟩ := h
          exact ⟨ru, List.mem_cons_self _ _, hm, rfl, rfl⟩
      | none =>
          rw [hm] at h
          obtain ⟨ru', hmem, h1, h2, h3⟩ := tryRules_mem rs cs m rest k a h
          exact ⟨ru', List.mem_cons_of_mem _ hmem, h1, h2, h3⟩

theorem rules_ok (B : List (List Char)) (md : Mode) :
    ∀ ru ∈ rulesOf B md, MatcherOk ru.matcher := by
  intro ru h
  cases md <;>
    simp only [rulesOf, rootRules, baseRules, wsRules, varnameRules,
      funcnameRules, gotoRules, labelRules, sqsCombined, dqsCombined,
      List.cons_append, List.nil_append, List.mem_cons,
      List.not_mem_nil, or_false] at h <;>
  (repeat' rcases h with rfl | h) <;>
  first
    | exact matchCommentMultiline_ok
    | exact matchCommentSingle_ok
    | exact matchSpace_ok
    | exact matchShebang_ok
    | exact matchHex_ok
    | exact matchFloat_ok
    | exact matchFloatE_ok
    | exact matchInt_ok
    | exact matchLongString_ok
    | exact matchColonColon_ok
    | exact matchDots3_ok
    | exact matchOperator_ok
    | exact matchPunct_ok
    | exact matchWords_ok _
    | exact matchBuiltin_ok B
    | exact matchIdentBefore_ok _
    | exact matchIdent_ok
    | exact matchChar_ok _
    | exact matchDotDot_ok
    | exact matchDotOrColon_ok
    | exact matchStringEscape_ok
    | exact matchStringRun_ok _

theorem rules_act (B : List (List Char)) (md : Mode) :
    ∀ ru ∈ rulesOf B md,
      ru.act = .stay ∨ ru.act = .pop ∨
      ∃ m', ru.act = .push m' ∧ m' ≠ .root ∧ m' ≠ .base := by
  intro ru h
  cases md <;>
    simp only [rulesOf, rootRules, baseRules, wsRules, varnameRules,
      funcnameRules, gotoRules, labelRules, sqsCombined, dqsCombined,
      List.cons_append, List.nil_append, List.mem_cons,
      List.not_mem_nil, or_false] at h <;>
  (repeat' rcases h with rfl | h) <;>
  first
    | exact Or.inl rfl
    | exact Or.inr (Or.inl rfl)
    | exact Or.inr (Or.inr ⟨_, rfl, by decide, by decide⟩)

theorem baseRules_no_pop (B : List (List Char)) :
    ∀ ru ∈ baseRules B, ru.act ≠ .pop := by
  intro ru h
  simp only [baseRules, wsRules, List.cons_append, List.nil_append,
    List.mem_cons, List.not_mem_nil, or_false] at h
  (repeat' rcases h with rfl | h) <;> simp

theorem rules_builtin (B : List (List Char)) (md : Mode) :
    ∀ ru ∈ rulesOf B md, ru.kind = .nameBuiltin →
      ∀ cs m r, ru.matcher cs = some (m, r) → m ∈ B := by
  intro ru h
  cases md <;>
    simp only [rulesOf, rootRules, baseRules, wsRules, varnameRules,
      funcnameRules, gotoRules, labelRules, sqsCombined, dqsCombined,
      List.cons_append, List.nil_append, List.mem_cons,
      List.not_mem_nil, or_false] at h <;>
  (repeat' rcases h with rfl | h) <;>
  first
    | (intro hk; exact absurd hk (by decide))
    | (intro _ cs m r hmm; exact (matchBuiltin_sound B cs m r hmm).2.2)

/-- Concatenation of the texts of a token stream. -/
def concatValues (ts : List Token) : List Char :=
  (ts.map Token.value).flatten

theorem concatValues_nil : concatValues [] = [] := rfl

theorem concatValues_cons (t : Token) (ts : List Token) :
    concatValues (t :: ts) = t.value ++ concatValues ts := rfl

/-- Offsets of a token stream are consecutive from a start position: each
token starts where the previous one ended. -/
def offsetsFrom : Nat → List Token → Prop
  | _, [] => True
  | p, t :: ts => t.index = p ∧ offsetsFrom (p + t.value.length) ts

theorem offsetsFrom_cons (p : Nat) (t : Token) (ts : List Token) :
    offsetsFrom p (t :: ts) =
      (t.index = p ∧ offsetsFrom (p + t.value.length) ts) := rfl

/-- Well-formed scanning stacks: a run of pushed modes above the persistent
`base` and `root` bottom. -/
def StackOk (st : List Mode) : Prop :=
  ∃ l, st = l ++ [Mode.base, Mode.root] ∧ ∀ m ∈ l, m ≠ .root ∧ m ≠ .base

theorem scanAux_nil (B : List (List Char)) (fuel : Nat) (stack : List Mode)
    (pos : Nat) : scanAux B fuel stack pos [] = [] := by
  cases fuel <;> rfl

theorem scanAux_sound (B : List (List Char)) :
    ∀ (fuel : Nat) (stack : List Mode) (pos : Nat) (cs : List Char),
      cs.length + 1 ≤ fuel → StackOk stack →
      concatValues (scanAux B fuel stack pos cs) = cs ∧
      offsetsFrom pos (scanAux B fuel stack pos cs) ∧
      ∀ t ∈ scanAux B fuel stack pos cs, t.tok = .nameBuiltin →
        t.value ∈ B := by
  intro fuel
  induction fuel with
  | zero => intro stack pos cs hf _; exact absurd hf (by omega)
  | succ n ih =>
    intro stack pos cs hf hst
    match cs with
    | [] =>
        rw [scanAux_nil]
        exact ⟨rfl, trivial, by simp⟩
    | c :: cs' =>
      obtain ⟨l, rfl, hl⟩ := hst
      have hmd : (l ++ [Mode.base, Mode.root]).headD Mode.root ≠ .root := by
        cases l with
        | nil => simp
        | cons m l' => simpa using (hl m (by simp)).1
      cases htr : tryRules
          (rulesOf B ((l ++ [Mode.base, Mode.root]).headD Mode.root))
          (c :: cs') with
      | some res =>
          obtain ⟨m, rest, k, act⟩ := res
          obtain ⟨ru, hru, hmatch, hk, hact⟩ :=
            tryRules_mem _ _ _ _ _ _ htr
          obtain ⟨happ, hne⟩ := rules_ok B _ ru hru _ _ _ hmatch
          have hm1 : 1 ≤ m.length := by
            cases m with
            | nil => exact absurd rfl hne
            | cons _ _ => simp
          have hlens : m.length + rest.length = cs'.length + 1 := by
            have hc := congrArg List.length happ
            simp only [List.length_append, List.length_cons] at hc
            omega
          have hlen : rest.length + 1 ≤ n := by
            simp only [List.length_cons] at hf
            omega
          have hunfold : scanAux B (n + 1) (l ++ [Mode.base, Mode.root]) pos
              (c :: cs') =
              ⟨pos, k, m⟩ ::
                scanAux B n (applyAct act (l ++ [Mode.base, Mode.root]))
                  (pos + m.length) rest := by
            simp only [scanAux]
            rw [htr]
          have hst' : StackOk (applyAct act (l ++ [Mode.base, Mode.root])) := by
            rcases rules_act B _ ru hru with hstay | hpop | ⟨m', hpush, hm'r, hm'b⟩
            · rw [hact] at hstay
              subst hstay
              exact ⟨l, rfl, hl⟩
            · rw [hact] at hpop
              subst hpop
              cases l with
              | nil =>
                  exfalso
                  have : ru ∈ baseRules B := by
                    simpa [rulesOf] using hru
                  exact baseRules_no_pop B ru this hact
              | cons m0 l' =>
                  cases l' with
                  | nil => exact ⟨[], rfl, by simp⟩
                  | cons m1 l'' =>
                      refine ⟨m1 :: l'', rfl, ?_⟩
                      intro mm hmm
                      exact hl mm (List.mem_cons_of_mem _ hmm)
            · rw [hact] at hpush
              subst hpush
              refine ⟨m' :: l, rfl, ?_⟩
              intro mm hmm
              rcases List.mem_cons.mp hmm with rfl | hmm'
              · exact ⟨hm'r, hm'b⟩
              · exact hl mm hmm'
          obtain ⟨ih1, ih2, ih3⟩ :=
            ih (applyAct act (l ++ [Mode.base, Mode.root]))
              (pos + m.length) rest hlen hst'
          rw [hunfold]
          refine ⟨?_, ?_, ?_⟩
          · rw [concatValues_cons, ih1, happ]
          · rw [offsetsFrom_cons]
            exact ⟨rfl, ih2⟩
          · intro t ht
            rcases List.mem_cons.mp ht with rfl | ht'
            · intro hb
              refine rules_builtin B _ ru hru ?_ _ _ _ hmatch
              rw [hk]
              exact hb
            · exact ih3 t ht'
      | none =>
          have hunfold : scanAux B (n + 1) (l ++ [Mode.base, Mode.root]) pos
              (c :: cs') =
              ⟨pos, .error, [c]⟩ ::
                scanAux B n (l ++ [Mode.base, Mode.root]) (pos + 1) cs' := by
            simp only [scanAux]
            rw [htr, if_neg hmd]
          have hlen : cs'.length + 1 ≤ n := by
            simp only [List.length_cons] at hf
            omega
          obtain ⟨ih1, ih2, ih3⟩ :=
            ih (l ++ [Mode.base, Mode.root]) (pos + 1) cs' hlen ⟨l, rfl, hl⟩
          rw [hunfold]
          refine ⟨?_, ?_, ?_⟩
          · rw [concatValues_cons, ih1]
            rfl
          · rw [offsetsFrom_cons]
            exact ⟨rfl, ih2⟩
          · intro t ht
            rcases List.mem_cons.mp ht with rfl | ht'
            · intro hb
              exact absurd hb (by simp)
            · exact ih3 t ht'

theorem dropWhile_head_false (p : Char → Bool) :
    ∀ l : List Char, l.dropWhile p = [] ∨
      ∃ c r', l.dropWhile p = c :: r' ∧ p c = false
  | [] => Or.inl rfl
  | c :: l => by
      rw [List.dropWhile_cons]
      by_cases hc : p c
      · rw [if_pos hc]
        exact dropWhile_head_false p l
      · rw [if_neg hc]
        exact Or.inr ⟨c, l, rfl, by simpa using hc⟩

theorem matchShebang_none_after (cs m r : List Char)
    (h : matchShebang cs = some (m, r)) :
    2 ≤ m.length ∧ matchShebang r = none := by
  simp only [matchShebang] at h
  split at h
  · rw [Option.some.injEq, Prod.mk.injEq] at h
    obtain ⟨rfl, rfl⟩ := h
    refine ⟨by simp, ?_⟩
    rcases dropWhile_head_false (fun c => !(c = '\n')) (cs.drop 2) with
      hnil | ⟨c', r', heq, hc'⟩
    · rw [hnil]; rfl
    · rw [heq]
      have hc'' : c' = '\n' := by simpa using hc'
      subst hc''
      simp [matchShebang, isPrefixList]
  · exact absurd h (by simp)

theorem getTokensRaw_sound (B : List (List Char)) (text : List Char) :
    concatValues (getTokensRaw B text) = text ∧
    offsetsFrom 0 (getTokensRaw B text) ∧
    ∀ t ∈ getTokensRaw B text, t.tok = .nameBuiltin → t.value ∈ B := by
  match text with
  | [] =>
      unfold getTokensRaw
      rw [scanAux_nil]
      exact ⟨rfl, trivial, by simp⟩
  | c :: cs =>
      unfold getTokensRaw
      rw [show (c :: cs).length + 2 = (cs.length + 2) + 1 from by
        simp [List.length_cons]]
      cases hsb : matchShebang (c :: cs) with
      | none =>
          have htr : tryRules (rulesOf B Mode.root) (c :: cs) = none := by
            simp [tryRules, rulesOf, rootRules, hsb]
          have hunfold : scanAux B (cs.length + 2 + 1) [Mode.root] 0
              (c :: cs) =
              scanAux B (cs.length + 2) [Mode.base, Mode.root] 0 (c :: cs) := by
            simp only [scanAux, List.headD]
            rw [htr]
            simp
          rw [hunfold]
          exact scanAux_sound B (cs.length + 2) [Mode.base, Mode.root] 0
            (c :: cs) (by simp only [List.length_cons]; omega)
            ⟨[], rfl, by simp⟩
      | some pr =>
          obtain ⟨m, rest⟩ := pr
          obtain ⟨happ, hne⟩ := matchShebang_ok _ _ _ hsb
          obtain ⟨hm2, hrest⟩ := matchShebang_none_after _ _ _ hsb
          have htr : tryRules (rulesOf B Mode.root) (c :: cs) =
              some (m, rest, Tok.commentPreproc, Action.stay) := by
            simp [tryRules, rulesOf, rootRules, hsb]
          have hunfold : scanAux B (cs.length + 2 + 1) [Mode.root] 0
              (c :: cs) =
              ⟨0, Tok.commentPreproc, m⟩ ::
                scanAux B (cs.length + 2) [Mode.root] (0 + m.length) rest := by
            simp only [scanAux, List.headD]
            rw [htr]
            simp only [applyAct]
          rw [hunfold]
          have hlens : m.length + rest.length = cs.length + 1 := by
            have hc := congrArg List.length happ
            simp only [List.length_append, List.length_cons] at hc
            omega
          cases rest with
          | nil =>
              rw [scanAux_nil]
              refine ⟨?_, ⟨rfl, trivial⟩, ?_⟩
              · rw [concatValues_cons, concatValues_nil]
                simpa using happ
              · intro t ht
                rcases List.mem_cons.mp ht with rfl | ht'
                · intro hb; exact absurd hb (by simp)
                · simp at ht'
          | cons c2 cs2 =>
              rw [show cs.length + 2 = (cs.length + 1) + 1 from rfl]
              have htr2 : tryRules (rulesOf B Mode.root) (c2 :: cs2) =
                  none := by
                simp [tryRules, rulesOf, rootRules, hrest]
              have hunfold2 : scanAux B (cs.length + 1 + 1) [Mode.root]
                  (0 + m.length) (c2 :: cs2) =
                  scanAux B (cs.length + 1) [Mode.base, Mode.root]
                    (0 + m.length) (c2 :: cs2) := by
                simp only [scanAux, List.headD]
                rw [htr2]
                simp
              rw [hunfold2]
              obtain ⟨s1, s2, s3⟩ := scanAux_sound B (cs.length + 1)
                [Mode.base, Mode.root] (0 + m.length) (c2 :: cs2)
                (by simp only [List.length_cons] at hlens ⊢; omega)
                ⟨[], rfl, by simp⟩
              refine ⟨?_, ⟨rfl, ?_⟩, ?_⟩
              · rw [concatValues_cons, s1]
                exact happ
              · exact s2
              · intro t ht
                rcases List.mem_cons.mp ht with rfl | ht'
                · intro hb; exact absurd hb (by simp)
                · exact s3 t ht'

/-! The builtin post-pass preserves the partition. -/

/-- Number of dots in a word. -/
def dotCount : List Char → Nat
  | [] => 0
  | c :: cs => (if c = '.' then 1 else 0) + dotCount cs

theorem splitOnDot_ne_nil : ∀ v : List Char, splitOnDot v ≠ []
  | [] => by simp [splitOnDot]
  | c :: cs => by
      simp only [splitOnDot]
      split
      · simp
      · split <;> simp

theorem splitOnDot_length :
    ∀ v : List Char, (splitOnDot v).length = dotCount v + 1
  | [] => rfl
  | c :: cs => by
      simp only [splitOnDot, dotCount]
      split
      · simp only [List.length_cons, splitOnDot_length cs]
        omega
      · cases hs : splitOnDot cs with
        | nil => exact absurd hs (splitOnDot_ne_nil cs)
        | cons p ps =>
            have hrec := splitOnDot_length cs
            rw [hs] at hrec
            simp only [List.length_cons] at hrec ⊢
            omega

theorem splitOnDot_one : ∀ v a : List Char, splitOnDot v = [a] → v = a
  | [], a, h => by
      rw [show splitOnDot [] = [[]] from rfl, List.cons.injEq] at h
      exact h.1
  | c :: cs, a, h => by
      simp only [splitOnDot] at h
      split at h
      · rename_i hc
        rw [List.cons.injEq] at h
        exact absurd h.2 (splitOnDot_ne_nil cs)
      · rename_i hc
        cases hs : splitOnDot cs with
        | nil => exact absurd hs (splitOnDot_ne_nil cs)
        | cons p ps =>
            rw [hs, List.cons.injEq] at h
            obtain ⟨rfl, hps⟩ := h
            have : splitOnDot cs = [p] := by rw [hs, hps]
            rw [splitOnDot_one cs p this]

theorem splitOnDot_two :
    ∀ v a b : List Char, splitOnDot v = [a, b] → v = a ++ '.' :: b
  | [], a, b, h => by simp [splitOnDot] at h
  | c :: cs, a, b, h => by
      simp only [splitOnDot] at h
      split at h
      · rename_i hc
        subst hc
        rw [List.cons.injEq] at h
        obtain ⟨rfl, hcs⟩ := h
        rw [splitOnDot_one cs b hcs]
        rfl
      · rename_i hc
        cases hs : splitOnDot cs with
        | nil => exact absurd hs (splitOnDot_ne_nil cs)
        | cons p ps =>
            rw [hs, List.cons.injEq] at h
            obtain ⟨rfl, hps⟩ := h
            have h2 : splitOnDot cs = [p, b] := by rw [hs, hps]
            rw [List.cons_append, splitOnDot_two cs p b h2]

theorem dotCount_pos_of_mem :
    ∀ v : List Char, '.' ∈ v → 1 ≤ dotCount v
  | [], h => absurd h (by simp)
  | c :: cs, h => by
      simp only [dotCount]
      rcases List.mem_cons.mp h with rfl | h'
      · simp
      · have := dotCount_pos_of_mem cs h'
        omega

theorem list_length_two {α : Type} (l : List α) (h : l.length = 2) :
    ∃ a b, l = [a, b] := by
  match l with
  | [a, b] => exact ⟨a, b, rfl⟩
  | [] => simp at h
  | [a] => simp at h
  | a :: b :: c :: t => simp [List.length_cons] at h

theorem postBuiltin_sound (F : List (List Char)) :
    ∀ ts ts', postBuiltin F ts = some ts' →
      concatValues ts' = concatValues ts ∧
      ∀ p, offsetsFrom p ts → offsetsFrom p ts'
  | [], ts', h => by
      simp only [postBuiltin, Option.some.injEq] at h
      subst h
      exact ⟨rfl, fun p hp => hp⟩
  | t :: ts, ts', h => by
      cases hrest : postBuiltin F ts with
      | none =>
          have hnone : postBuiltin F (t :: ts) = none := by
            simp [postBuiltin, hrest]
          rw [hnone] at h
          exact Option.noConfusion h
      | some rest =>
          simp only [postBuiltin, hrest] at h
          obtain ⟨ih1, ih2⟩ := postBuiltin_sound F ts rest hrest
          split at h
          · rename_i hcond
            split at h
            · rename_i hdot
              split at h
              · rename_i a b hsplit
                rw [Option.some.injEq] at h
                subst h
                have hv := splitOnDot_two t.value a b hsplit
                have hvlen : t.value.length = a.length + 1 + b.length := by
                  rw [hv]
                  simp only [List.length_append, List.length_cons]
                  omega
                constructor
                · simp only [concatValues_cons, ih1, hv]
                  simp
                · intro p hp
                  rw [offsetsFrom_cons] at hp
                  obtain ⟨hidx, htail⟩ := hp
                  subst hidx
                  refine ⟨rfl, rfl, rfl, ?_⟩
                  have harith : t.index + a.length +
                      (['.'] : List Char).length + b.length =
                      t.index + t.value.length := by
                    simp only [List.length_cons, List.length_nil]
                    omega
                  rw [harith]
                  exact ih2 _ htail
              · exact Option.noConfusion h
            · rw [Option.some.injEq] at h
              subst h
              refine ⟨by simp [concatValues_cons, ih1], ?_⟩
              intro p hp
              rw [offsetsFrom_cons] at hp ⊢
              exact ⟨hp.1, ih2 _ hp.2⟩
          · rw [Option.some.injEq] at h
            subst h
            refine ⟨by simp [concatValues_cons, ih1], ?_⟩
            intro p hp
            rw [offsetsFrom_cons] at hp ⊢
            exact ⟨hp.1, ih2 _ hp.2⟩

theorem postBuiltin_success (F : List (List Char)) :
    ∀ ts : List Token,
      (∀ t ∈ ts, t.tok = .nameBuiltin → dotCount t.value ≤ 1) →
      ∃ ts', postBuiltin F ts = some ts'
  | [], _ => ⟨[], rfl⟩
  | t :: ts, hts => by
      obtain ⟨ts', hts'⟩ := postBuiltin_success F ts
        (fun x hx => hts x (List.mem_cons_of_mem _ hx))
      simp only [postBuiltin, hts']
      split
      · rename_i hcond
        by_cases hdot : '.' ∈ t.value
        · rw [if_pos hdot]
          have h1 : dotCount t.value ≤ 1 :=
            hts t (List.mem_cons_self _ _) hcond.1
          have h2 : 1 ≤ dotCount t.value := dotCount_pos_of_mem _ hdot
          have hlen2 : (splitOnDot t.value).length = 2 := by
            rw [splitOnDot_length]
            omega
          obtain ⟨a, b, hab⟩ := list_length_two _ hlen2
          rw [hab]
          exact ⟨_, rfl⟩
        · rw [if_neg hdot]
          exact ⟨_, rfl⟩
      · exact ⟨_, rfl⟩

theorem postBuiltin_empty_no_builtin :
    ∀ ts ts', postBuiltin [] ts = some ts' →
      ∀ t ∈ ts', t.tok ≠ .nameBuiltin
  | [], ts', h => by
      simp only [postBuiltin, Option.some.injEq] at h
      subst h
      simp
  | t :: ts, ts', h => by
      cases hrest : postBuiltin ([] : List (List Char)) ts with
      | none =>
          have hnone : postBuiltin ([] : List (List Char)) (t :: ts) = none := by
            simp [postBuiltin, hrest]
          rw [hnone] at h
          exact Option.noConfusion h
      | some rest =>
          simp only [postBuiltin, hrest] at h
          split at h
          · split at h
            · split at h
              · rw [Option.some.injEq] at h
                subst h
                intro x hx
                rcases List.mem_cons.mp hx with rfl | hx'
                · simp
                · rcases List.mem_cons.mp hx' with rfl | hx''
                  · simp
                  · rcases List.mem_cons.mp hx'' with rfl | hx'''
                    · simp
                    · exact postBuiltin_empty_no_builtin ts rest hrest x hx'''
              · exact Option.noConfusion h
            · rw [Option.some.injEq] at h
              subst h
              intro x hx
              rcases List.mem_cons.mp hx with rfl | hx'
              · simp
              · exact postBuiltin_empty_no_builtin ts rest hrest x hx'
          · rename_i hcond
            rw [Option.some.injEq] at h
            subst h
            intro x hx
            rcases List.mem_cons.mp hx with rfl | hx'
            · intro hb
              exact hcond ⟨hb, by simp⟩
            · exact postBuiltin_empty_no_builtin ts rest hrest x hx'

/-! Claim theorems. -/

/-- C1: for every input text, the scan of `LuaLexer.get_tokens_unprocessed`
succeeds and the concatenation in emission order of the token texts
reconstructs the input exactly, each token starting where the previous one
ended (offsets are the cumulative text lengths from 0); the builtin
post-pass — including its split branch — preserves this partition.  The
builtin registry is the external catalog, taken as a parameter; the split
branch unpacks `value.split(".")` into exactly two parts, so the theorem
carries the catalog's well-formedness (at most one dot per builtin name),
which the real catalog satisfies. -/
theorem c1_token_partition (M : Modules) (hl : Bool) (dis : List (List Char))
    (text : List Char)
    (hM : ∀ w ∈ all_lua_builtins M, dotCount w ≤ 1) :
    ∃ ts, get_tokens_unprocessed M hl dis text = some ts ∧
      concatValues ts = text ∧ offsetsFrom 0 ts := by
  obtain ⟨r1, r2, r3⟩ := getTokensRaw_sound (all_lua_builtins M) text
  obtain ⟨ts', hts'⟩ := postBuiltin_success (luaFunctions M hl dis)
    (getTokensRaw (all_lua_builtins M) text)
    (fun t ht hb => hM _ (r3 t ht hb))
  obtain ⟨p1, p2⟩ :=
    postBuiltin_sound (luaFunctions M hl dis) _ ts' hts'
  exact ⟨ts', hts', by rw [p1, r1], p2 0 r2⟩

/-- Witness for C1 at the concrete input `x = 1` and the sample registry. -/
theorem c1_token_partition_witness :
    (∀ w ∈ all_lua_builtins sampleModules, dotCount w ≤ 1) ∧
    ∃ ts, get_tokens_unprocessed sampleModules true [] ("x = 1".toList) =
        some ts ∧
      concatValues ts = "x = 1".toList ∧ offsetsFrom 0 ts :=
  ⟨by decide, c1_token_partition sampleModules true [] _ (by decide)⟩

/-- C2 counterexample: scanning `table.unknownfn` (not an enabled or known
builtin) does give name-kinded `table`, punctuation `.`, name-kinded
`unknownfn` at offsets 0, 5 and 6, but the third token has 9 characters, so
it occupies `[6,15)`; the claimed span `[6,16)` is wrong. -/
theorem c2_qualified_split_counterexample :
    get_tokens_unprocessed sampleModules true [] ("table.unknownfn".toList) =
      some [⟨0, .nameVariable, "table".toList⟩, ⟨5, .punctuation, ['.']⟩,
            ⟨6, .nameProperty, "unknownfn".toList⟩] ∧
    6 + ("unknownfn".toList).length ≠ 16 := by
  refine ⟨by rfl, by decide⟩

/-- C2 amended: the disabled-or-unknown qualified reference `table.unknownfn`
is emitted as three tokens — a name token (`Name.Variable`) `table`, a
punctuation token `.`, and a name token (`Name.Property`) `unknownfn` — at
offsets `[0,5)`, `[5,6)` and `[6,15)`. -/
theorem c2_qualified_split :
    get_tokens_unprocessed sampleModules true [] ("table.unknownfn".toList) =
      some [⟨0, .nameVariable, "table".toList⟩, ⟨5, .punctuation, ['.']⟩,
            ⟨6, .nameProperty, "unknownfn".toList⟩] ∧
    6 + ("unknownfn".toList).length = 15 := by
  refine ⟨by rfl, by decide⟩

/-- C7: scanning `foo.bar()` classifies `foo` with the plain variable-name
kind `Name.Variable` (the head of the property chain), `.` as punctuation,
`bar` as `Name.Function` (it is followed by `(`), and the characters `(` and
`)` as punctuation (one `Punctuation`-classified token covers the adjacent
run). -/
theorem c7_role_disambiguation :
    get_tokens_unprocessed sampleModules true [] ("foo.bar()".toList) =
      some [⟨0, .nameVariable, "foo".toList⟩, ⟨3, .punctuation, ['.']⟩,
            ⟨4, .nameFunction, "bar".toList⟩,
            ⟨7, .punctuation, ['(', ')']⟩] := by
  rfl

/-- C8: the double-quoted string `"a\tb"` yields, between the opening-quote
token and the closing-quote token, exactly the three tokens
content `a`, escape `\t`, content `b`. -/
theorem c8_escape_parsing :
    get_tokens_unprocessed sampleModules true [] ("\"a\\tb\"".toList) =
      some [⟨0, .stringDouble, ['"']⟩, ⟨1, .stringDouble, ['a']⟩,
            ⟨2, .stringEscape, ['\\', 't']⟩, ⟨4, .stringDouble, ['b']⟩,
            ⟨5, .stringDouble, ['"']⟩] := by
  rfl

/-- C10: with `func_name_highlighting = False` the enabled-function set is
empty, so every token tentatively matched as a builtin is reclassified (or
split) by the post-pass and no token of the final stream carries the
`Name.Builtin` classification, for every input. -/
theorem c10_no_func_name_highlighting (M : Modules)
    (dis : List (List Char)) (text : List Char) (ts : List Token)
    (h : get_tokens_unprocessed M false dis text = some ts) :
    ∀ t ∈ ts, t.tok ≠ .nameBuiltin := by
  unfold get_tokens_unprocessed at h
  have hF : luaFunctions M false dis = [] := rfl
  rw [hF] at h
  exact postBuiltin_empty_no_builtin _ ts h

/-- Witness for C10: scanning `print` (a builtin of the sample registry)
with highlighting off yields a plain name and no builtin token. -/
theorem c10_no_func_name_highlighting_witness :
    get_tokens_unprocessed sampleModules false [] ("print".toList) =
      some [⟨0, .name, "print".toList⟩] ∧
    ∀ t ∈ [(⟨0, .name, "print".toList⟩ : Token)], t.tok ≠ .nameBuiltin :=
  ⟨by rfl, c10_no_func_name_highlighting sampleModules [] ("print".toList)
    [⟨0, .name, "print".toList⟩] (by rfl)⟩

/-- C3: builtin gating.  A builtin-tagged token whose text belongs only to
the `string` module of the registry keeps the builtin classification under
the default configuration (highlighting on, nothing disabled); with
`disabled_modules = ["string"]` it is never emitted builtin-classified: a
dotless name is reclassified to a plain name, and a qualified name — the
usual case, every real string-module builtin being of the shape
`string.foo` — is split into a plain name, punctuation `.`, and a plain
name at the correct sub-offsets. -/
theorem c3_builtin_gating (M : Modules) (w : List Char) (i : Nat)
    (fns : List (List Char))
    (hmem : ("string".toList, fns) ∈ M) (hw : w ∈ fns)
    (honly : ∀ p ∈ M, p.1 ≠ "string".toList → w ∉ p.2) :
    postBuiltin (luaFunctions M true []) [⟨i, .nameBuiltin, w⟩] =
      some [⟨i, .nameBuiltin, w⟩] ∧
    ('.' ∉ w →
      postBuiltin (luaFunctions M true ["string".toList])
        [⟨i, .nameBuiltin, w⟩] = some [⟨i, .name, w⟩]) ∧
    (∀ a b, splitOnDot w = [a, b] →
      postBuiltin (luaFunctions M true ["string".toList])
        [⟨i, .nameBuiltin, w⟩] =
          some [⟨i, .name, a⟩, ⟨i + a.length, .punctuation, ['.']⟩,
                ⟨i + a.length + 1, .name, b⟩]) := by
  have hnotin : w ∉ luaFunctions M true ["string".toList] := by
    intro hcontra
    unfold luaFunctions at hcontra
    rw [if_pos rfl, List.mem_flatten] at hcontra
    obtain ⟨l, hl, hwl⟩ := hcontra
    rw [List.mem_map] at hl
    obtain ⟨p, hp, rfl⟩ := hl
    rw [List.mem_filter] at hp
    obtain ⟨hpM, hpd⟩ := hp
    have hne : p.1 ≠ "string".toList := by simpa using hpd
    exact honly p hpM hne hwl
  have hin : w ∈ luaFunctions M true [] := by
    unfold luaFunctions
    rw [if_pos rfl, List.mem_flatten]
    exact ⟨fns, List.mem_map.mpr ⟨("string".toList, fns),
      List.mem_filter.mpr ⟨hmem, by simp⟩, rfl⟩, hw⟩
  have hnotin' : w ∉ luaFunctions M true [['s', 't', 'r', 'i', 'n', 'g']] :=
    hnotin
  refine ⟨by simp [postBuiltin, hin], ?_, ?_⟩
  · intro hnodot
    simp [postBuiltin, hnotin, hnotin', hnodot]
  · intro a b hab
    have hdot : '.' ∈ w := by
      rw [splitOnDot_two w a b hab]
      exact List.mem_append.mpr (Or.inr (List.mem_cons_self _ _))
    simp [postBuiltin, hnotin, hnotin', hdot, hab]

/-- Witness for C3 at the sample registry: the qualified string-module
builtin `string.byte` passes through as a builtin by default and is split
into name, dot, name when the `string` module is disabled; the dotless
string-module builtin `slen` is reclassified to a plain name. -/
theorem c3_builtin_gating_witness :
    (("string".toList, ["string.byte".toList, "string.format".toList,
        "slen".toList]) ∈ sampleModules) ∧
    splitOnDot ("string.byte".toList) = ["string".toList, "byte".toList] ∧
    postBuiltin (luaFunctions sampleModules true [])
        [⟨0, .nameBuiltin, "string.byte".toList⟩] =
      some [⟨0, .nameBuiltin, "string.byte".toList⟩] ∧
    postBuiltin (luaFunctions sampleModules true ["string".toList])
        [⟨0, .nameBuiltin, "string.byte".toList⟩] =
      some [⟨0, .name, "string".toList⟩,
            ⟨0 + ("string".toList).length, .punctuation, ['.']⟩,
            ⟨0 + ("string".toList).length + 1, .name, "byte".toList⟩] ∧
    postBuiltin (luaFunctions sampleModules true ["string".toList])
        [⟨1, .nameBuiltin, "slen".toList⟩] =
      some [⟨1, .name, "slen".toList⟩] :=
  ⟨by decide, by decide,
    (c3_builtin_gating sampleModules ("string.byte".toList) 0
      ["string.byte".toList, "string.format".toList, "slen".toList]
      (by decide) (by decide) (by decide)).1,
    (c3_builtin_gating sampleModules ("string.byte".toList) 0
      ["string.byte".toList, "string.format".toList, "slen".toList]
      (by decide) (by decide) (by decide)).2.2 ("string".toList)
      ("byte".toList) (by decide),
    (c3_builtin_gating sampleModules ("slen".toList) 1
      ["string.byte".toList, "string.format".toList, "slen".toList]
      (by decide) (by decide) (by decide)).2.1 (by decide)⟩

/-- C9: a disabled-module name that is not a module of the registry is a
silent no-op — the construction is total, the enabled-function set is the
one obtained with the unknown name removed from the list, and hence every
scan's output is identical. -/
theorem c9_unknown_disabled_module (M : Modules) (hl : Bool)
    (dis : List (List Char)) (x : List Char)
    (hx : ∀ p ∈ M, p.1 ≠ x) :
    luaFunctions M hl dis =
      luaFunctions M hl (dis.filter (fun y => !decide (y = x))) ∧
    ∀ text, get_tokens_unprocessed M hl dis text =
      get_tokens_unprocessed M hl (dis.filter (fun y => !decide (y = x)))
        text := by
  have hfn : luaFunctions M hl dis =
      luaFunctions M hl (dis.filter (fun y => !decide (y = x))) := by
    unfold luaFunctions
    cases hl
    · rfl
    · have hfilter :
          M.filter (fun p => !decide (p.1 ∈ dis)) =
          M.filter (fun p =>
            !decide (p.1 ∈ dis.filter (fun y => !decide (y = x)))) := by
        apply List.filter_congr
        intro p hp
        have hne := hx p hp
        congr 1
        rw [decide_eq_decide]
        constructor
        · intro hmem
          exact List.mem_filter.mpr ⟨hmem, by simpa using hne⟩
        · intro hmem
          exact (List.mem_filter.mp hmem).1
      simp only [if_pos rfl, hfilter]
  refine ⟨hfn, ?_⟩
  intro text
  unfold get_tokens_unprocessed
  rw [hfn]

/-- Witness for C9: disabling the unknown module `zzz` alongside `string`
behaves exactly like disabling `string` alone. -/
theorem c9_unknown_disabled_module_witness :
    (∀ p ∈ sampleModules, p.1 ≠ "zzz".toList) ∧
    (luaFunctions sampleModules true ["zzz".toList, "string".toList] =
      luaFunctions sampleModules true
        ((["zzz".toList, "string".toList]).filter
          (fun y => !decide (y = "zzz".toList))) ∧
      ∀ text, get_tokens_unprocessed sampleModules true
          ["zzz".toList, "string".toList] text =
        get_tokens_unprocessed sampleModules true
          ((["zzz".toList, "string".toList]).filter
            (fun y => !decide (y = "zzz".toList))) text) :=
  ⟨by decide,
    c9_unknown_disabled_module sampleModules true
      ["zzz".toList, "string".toList] ("zzz".toList) (by decide)⟩

theorem nameStart_ne_of (c d : Char) (h : nameStart c = true)
    (hd : nameStart d = false) : c ≠ d := by
  intro he
  rw [he, hd] at h
  exact Bool.noConfusion h

theorem nameStart_not_space (c : Char) (h : nameStart c = true) :
    isSpaceChar c = false := by
  cases hsp : isSpaceChar c
  · rfl
  · exfalso
    simp only [isSpaceChar, Bool.or_eq_true, decide_eq_true_eq] at hsp
    rcases hsp with ((((rfl | rfl) | rfl) | rfl) | rfl) | rfl <;>
      exact absurd h (by decide)

theorem matchSpace_cons_none (c : Char) (rest : List Char)
    (h : isSpaceChar c = false) : matchSpace (c :: rest) = none := by
  simp [matchSpace, runMatcher, List.takeWhile_cons, h]

theorem matchCommentSingle_cons_none (c : Char) (rest : List Char)
    (h : c ≠ '-') : matchCommentSingle (c :: rest) = none := by
  simp [matchCommentSingle, isPrefixList, Ne.symm h]

theorem matchCommentMultiline_cons_none (c : Char) (rest : List Char)
    (h : c ≠ '-') : matchCommentMultiline (c :: rest) = none := by
  simp [matchCommentMultiline, isPrefixList, Ne.symm h]

theorem matchColonColon_cons_none (c : Char) (rest : List Char)
    (h : c ≠ ':') : matchColonColon (c :: rest) = none := by
  simp [matchColonColon, isPrefixList, Ne.symm h]

theorem matchIdent_cons (c : Char) (rest : List Char)
    (h : nameStart c = true) :
    matchIdent (c :: rest) =
      some (c :: rest.takeWhile isWordChar, rest.dropWhile isWordChar) := by
  simp [matchIdent, h]

/-- C5 counterexample: in the `label` state, the identifier rule's
transition is `stay`, not a pop — the first matching rule on input `a` is
`(_name, Name.Label)` with no `#pop` — and scanning `::a b` therefore emits
`b` as a label name too, which could not happen had the mode popped after
the single identifier `a`. -/
theorem c5_label_goto_counterexample :
    tryRules (rulesOf (all_lua_builtins sampleModules) Mode.label)
        ('a' :: []) =
      some (['a'], [], Tok.nameLabel, Action.stay) ∧
    Action.stay ≠ Action.pop ∧
    get_tokens_unprocessed sampleModules true [] ("::a b".toList) =
      some [⟨0, .punctuation, [':', ':']⟩, ⟨2, .nameLabel, ['a']⟩,
            ⟨3, .whitespace, [' ']⟩, ⟨4, .nameLabel, ['b']⟩] := by
  refine ⟨by rfl, by decide, by rfl⟩

/-- C5 amended: the `goto` mode scans a single identifier as a label name
and pops; the `label` mode classifies an identifier as a label name but
stays, popping only when the closing `::` is scanned (as punctuation). -/
theorem c5_label_goto (B : List (List Char)) (c : Char) (rest r : List Char)
    (h : nameStart c = true) :
    tryRules (rulesOf B .gotoSt) (c :: rest) =
      some (c :: rest.takeWhile isWordChar, rest.dropWhile isWordChar,
        Tok.nameLabel, Action.pop) ∧
    tryRules (rulesOf B .label) (c :: rest) =
      some (c :: rest.takeWhile isWordChar, rest.dropWhile isWordChar,
        Tok.nameLabel, Action.stay) ∧
    tryRules (rulesOf B .label) (':' :: ':' :: r) =
      some ([':', ':'], r, Tok.punctuation, Action.pop) := by
  have hsp := nameStart_not_space c h
  have hdash : c ≠ '-' := nameStart_ne_of c '-' h (by decide)
  have hcol : c ≠ ':' := nameStart_ne_of c ':' h (by decide)
  refine ⟨?_, ?_, ?_⟩
  · simp [tryRules, rulesOf, gotoRules, wsRules,
      matchCommentMultiline_cons_none c rest hdash,
      matchCommentSingle_cons_none c rest hdash,
      matchSpace_cons_none c rest hsp,
      matchIdent_cons c rest h]
  · simp [tryRules, rulesOf, labelRules, wsRules,
      matchCommentMultiline_cons_none c rest hdash,
      matchCommentSingle_cons_none c rest hdash,
      matchSpace_cons_none c rest hsp,
      matchColonColon_cons_none c rest hcol,
      matchIdent_cons c rest h]
  · simp [tryRules, rulesOf, labelRules, wsRules, matchColonColon,
      matchCommentMultiline, matchCommentSingle, matchSpace, runMatcher,
      isPrefixList, isSpaceChar, List.takeWhile_cons]

/-- Witness for C5 at the identifier `x` and empty continuations. -/
theorem c5_label_goto_witness :
    nameStart 'x' = true ∧
    (tryRules (rulesOf (all_lua_builtins sampleModules) .gotoSt)
        ('x' :: []) =
      some ('x' :: ([] : List Char).takeWhile isWordChar,
        ([] : List Char).dropWhile isWordChar, Tok.nameLabel, Action.pop) ∧
    tryRules (rulesOf (all_lua_builtins sampleModules) .label)
        ('x' :: []) =
      some ('x' :: ([] : List Char).takeWhile isWordChar,
        ([] : List Char).dropWhile isWordChar, Tok.nameLabel, Action.stay) ∧
    tryRules (rulesOf (all_lua_builtins sampleModules) .label)
        (':' :: ':' :: []) =
      some ([':', ':'], [], Tok.punctuation, Action.pop)) :=
  ⟨by decide,
    c5_label_goto (all_lua_builtins sampleModules) 'x' [] [] (by decide)⟩

/-- C6 counterexample: inside the double-quoted string `"a\qb"`, the
unrecognized escape `\q` is not left as string content — the backslash is
emitted as an Error token at offset 2. -/
theorem c6_unrecognized_escape_counterexample :
    get_tokens_unprocessed sampleModules true [] ("\"a\\qb\"".toList) =
      some [⟨0, .stringDouble, ['"']⟩, ⟨1, .stringDouble, ['a']⟩,
            ⟨2, .error, ['\\']⟩, ⟨3, .stringDouble, ['q', 'b']⟩,
            ⟨5, .stringDouble, ['"']⟩] ∧
    (⟨2, Tok.error, ['\\']⟩ : Token).tok = Tok.error := by
  refine ⟨by rfl, rfl⟩

/-- C6 amended: inside a single- or double-quoted string body, a backslash
whose following characters do not form a recognized escape is emitted as a
one-character `Error` token for the backslash itself, and scanning continues
with the following characters (which the content rules then treat as
ordinary string content). -/
theorem c6_unrecognized_escape (B : List (List Char)) (stack : List Mode)
    (fuel pos : Nat) (cs : List Char) (h : matchEscBody cs = none) :
    scanAux B (fuel + 1) (Mode.dqsC :: stack) pos ('\\' :: cs) =
      ⟨pos, Tok.error, ['\\']⟩ ::
        scanAux B fuel (Mode.dqsC :: stack) (pos + 1) cs ∧
    scanAux B (fuel + 1) (Mode.sqsC :: stack) pos ('\\' :: cs) =
      ⟨pos, Tok.error, ['\\']⟩ ::
        scanAux B fuel (Mode.sqsC :: stack) (pos + 1) cs := by
  have hesc : matchStringEscape ('\\' :: cs) = none := by
    simp [matchStringEscape, h]
  have hdq : tryRules (rulesOf B .dqsC) ('\\' :: cs) = none := by
    simp [tryRules, rulesOf, dqsCombined, hesc, matchChar, matchStringRun,
      runMatcher, List.takeWhile_cons]
  have hsq : tryRules (rulesOf B .sqsC) ('\\' :: cs) = none := by
    simp [tryRules, rulesOf, sqsCombined, hesc, matchChar, matchStringRun,
      runMatcher, List.takeWhile_cons]
  constructor
  · simp only [scanAux, List.headD]
    rw [hdq]
    simp
  · simp only [scanAux, List.headD]
    rw [hsq]
    simp

/-- Witness for C6: the unrecognized body `q` after a backslash, in both
quoted-string modes over the base stack. -/
theorem c6_unrecognized_escape_witness :
    matchEscBody ['q'] = none ∧
    (scanAux (all_lua_builtins sampleModules) 4
        (Mode.dqsC :: [Mode.base, Mode.root]) 2 ('\\' :: ['q']) =
      ⟨2, Tok.error, ['\\']⟩ ::
        scanAux (all_lua_builtins sampleModules) 3
          (Mode.dqsC :: [Mode.base, Mode.root]) 3 ['q'] ∧
    scanAux (all_lua_builtins sampleModules) 4
        (Mode.sqsC :: [Mode.base, Mode.root]) 2 ('\\' :: ['q']) =
      ⟨2, Tok.error, ['\\']⟩ ::
        scanAux (all_lua_builtins sampleModules) 3
          (Mode.sqsC :: [Mode.base, Mode.root]) 3 ['q']) :=
  ⟨by rfl,
    c6_unrecognized_escape (all_lua_builtins sampleModules)
      [Mode.base, Mode.root] 3 2 ['q'] (by rfl)⟩

/-- C4: an input `--[==[` body `]==]` whose earliest level-2 closing
delimiter is the final `]==]` (in particular when the body contains a
mismatched-level `]=]`, which does not close the comment) is scanned as one
multiline `Comment` token spanning exactly from `--` through the matching
`]==]`; and the unterminated `--[==[ x ]=]` does not close at the
mismatched `]=]` — the multiline rule fails and scanning continues to the
end of the line as a single-line comment. -/
theorem c4_nesting_match :
    (∀ (M : Modules) (hl : Bool) (dis : List (List Char)) (s : List Char),
      findClose 2 (s ++ closeDelim 2) = some (s, []) →
      get_tokens_unprocessed M hl dis
          ('-' :: '-' :: '[' :: '=' :: '=' :: '[' :: (s ++ closeDelim 2)) =
        some [⟨0, .commentMultiline,
          '-' :: '-' :: '[' :: '=' :: '=' :: '[' :: (s ++ closeDelim 2)⟩]) ∧
    get_tokens_unprocessed sampleModules true [] ("--[==[ x ]=]".toList) =
      some [⟨0, .commentSingle, "--[==[ x ]=]".toList⟩] := by
  constructor
  · intro M hl dis s hclose
    have hmm : matchCommentMultiline
        ('-' :: '-' :: '[' :: '=' :: '=' :: '[' :: (s ++ closeDelim 2)) =
        some ('-' :: '-' :: '[' :: '=' :: '=' :: '[' :: (s ++ closeDelim 2),
              []) := by
      simp [matchCommentMultiline, isPrefixList, List.takeWhile_cons,
        List.dropWhile_cons, hclose]
    have htrb : tryRules (rulesOf (all_lua_builtins M) Mode.base)
        ('-' :: '-' :: '[' :: '=' :: '=' :: '[' :: (s ++ closeDelim 2)) =
        some ('-' :: '-' :: '[' :: '=' :: '=' :: '[' :: (s ++ closeDelim 2),
              [], Tok.commentMultiline, Action.stay) := by
      simp [tryRules, rulesOf, baseRules, wsRules, hmm]
    have htrr : tryRules (rulesOf (all_lua_builtins M) Mode.root)
        ('-' :: '-' :: '[' :: '=' :: '=' :: '[' :: (s ++ closeDelim 2)) =
        none := by
      simp [tryRules, rulesOf, rootRules, matchShebang, isPrefixList]
    unfold get_tokens_unprocessed getTokensRaw
    rw [show ('-' :: '-' :: '[' :: '=' :: '=' :: '[' ::
        (s ++ closeDelim 2)).length + 2 =
        (('-' :: '-' :: '[' :: '=' :: '=' :: '[' ::
          (s ++ closeDelim 2)).length + 1) + 1 from rfl]
    have h1 : scanAux (all_lua_builtins M)
        (('-' :: '-' :: '[' :: '=' :: '=' :: '[' ::
          (s ++ closeDelim 2)).length + 1 + 1) [Mode.root] 0
        ('-' :: '-' :: '[' :: '=' :: '=' :: '[' :: (s ++ closeDelim 2)) =
        scanAux (all_lua_builtins M)
          (('-' :: '-' :: '[' :: '=' :: '=' :: '[' ::
            (s ++ closeDelim 2)).length + 1) [Mode.base, Mode.root] 0
          ('-' :: '-' :: '[' :: '=' :: '=' :: '[' ::
            (s ++ closeDelim 2)) := by
      simp only [scanAux, List.headD]
      rw [htrr]
      simp
    have h2 : scanAux (all_lua_builtins M)
        (('-' :: '-' :: '[' :: '=' :: '=' :: '[' ::
          (s ++ closeDelim 2)).length + 1) [Mode.base, Mode.root] 0
        ('-' :: '-' :: '[' :: '=' :: '=' :: '[' :: (s ++ closeDelim 2)) =
        ⟨0, Tok.commentMultiline,
          '-' :: '-' :: '[' :: '=' :: '=' :: '[' :: (s ++ closeDelim 2)⟩ ::
          scanAux (all_lua_builtins M)
            ('-' :: '-' :: '[' :: '=' :: '=' :: '[' ::
              (s ++ closeDelim 2)).length [Mode.base, Mode.root]
            (0 + ('-' :: '-' :: '[' :: '=' :: '=' :: '[' ::
              (s ++ closeDelim 2)).length) [] := by
      simp only [scanAux, List.headD]
      rw [htrb]
      simp only [applyAct]
      rw [scanAux_nil]
    rw [h1, h2, scanAux_nil]
    simp [postBuiltin]
  · rfl

/-- Witness for C4 at the body ` x ]=] y `, which contains the
mismatched-level `]=]` the scan must continue past. -/
theorem c4_nesting_match_witness :
    findClose 2 (" x ]=] y ".toList ++ closeDelim 2) =
      some (" x ]=] y ".toList, []) ∧
    get_tokens_unprocessed sampleModules true []
        ('-' :: '-' :: '[' :: '=' :: '=' :: '[' ::
          (" x ]=] y ".toList ++ closeDelim 2)) =
      some [⟨0, .commentMultiline,
        '-' :: '-' :: '[' :: '=' :: '=' :: '[' ::
          (" x ]=] y ".toList ++ closeDelim 2)⟩] :=
  ⟨by rfl,
    c4_nesting_match.1 sampleModules true [] (" x ]=] y ".toList) (by rfl)⟩

end LuaLex
